import Mathlib

/-!
Shallow embedding of the `xio-device-status` repository
(`src/key_summary.py`, `src/xio_summary.py`, `src/xio_firmware_scan.py`).

Python strings are modelled by `String` with operations defined over
`String.data` so that everything evaluates in the kernel; Python dicts are
modelled by ordered association lists (insertion order preserved, first
matching key wins, as for a dict whose keys are unique); Python `None` and
loosely-typed scalar values are modelled by `Option` and `PyVal`.
-/

/-! ## Python string primitives -/

/-- ASCII lower-casing of a string, modelling Python `str.lower()` on ASCII data. -/
def strLower (s : String) : String := ⟨s.data.map Char.toLower⟩

/-- Characters stripped by Python `str.strip()`. -/
def isSpaceChar (c : Char) : Bool :=
  c = ' ' || c = '\t' || c = '\n' || c = '\r' || c = '\x0b' || c = '\x0c'

/-- Python `str.strip()`: drop leading and trailing whitespace. -/
def strTrim (s : String) : String :=
  ⟨((s.data.dropWhile isSpaceChar).reverse.dropWhile isSpaceChar).reverse⟩

/-- Bool test: the first list is a leading segment of the second. -/
def hasPreL : List Char → List Char → Bool
  | [], _ => true
  | _ :: _, [] => false
  | a :: as, b :: bs => a = b && hasPreL as bs

/-- Bool test: `needle` occurs contiguously inside the second list. -/
def hasSubL (needle : List Char) : List Char → Bool
  | [] => needle.isEmpty
  | c :: rest => hasPreL needle (c :: rest) || hasSubL needle rest

/-- Python `needle in s` for strings. -/
def hasSub (needle s : String) : Bool := hasSubL needle.data s.data

/-- Python `s.startswith(needle)`. -/
def hasPre (needle s : String) : Bool := hasPreL needle.data s.data

/-- Accumulating splitter behind `pyWords`: splits on whitespace, dropping empties. -/
def splitWSAcc (cur : List Char) : List Char → List (List Char)
  | [] => if cur.isEmpty then [] else [cur.reverse]
  | c :: rest =>
    if isSpaceChar c then
      if cur.isEmpty then splitWSAcc [] rest else cur.reverse :: splitWSAcc [] rest
    else splitWSAcc (c :: cur) rest

/-- Python `s.split()`: whitespace-separated words, empties dropped. -/
def pyWords (s : String) : List String := (splitWSAcc [] s.data).map (fun l => ⟨l⟩)

/-- Lexicographic comparison of char lists by code point, modelling Python `<=`
on strings. -/
def listLe : List Char → List Char → Bool
  | [], _ => true
  | _ :: _, [] => false
  | a :: as, b :: bs =>
    if a.toNat < b.toNat then true
    else if b.toNat < a.toNat then false
    else listLe as bs

/-- Python string order as a proposition. -/
def strLe (a b : String) : Prop := listLe a.data b.data = true

instance (a b : String) : Decidable (strLe a b) := instDecidableEqBool _ _

/-- Order on association-list entries given by Python string order on the key. -/
def keyPairLe {β : Type} (a b : String × β) : Prop := listLe a.1.data b.1.data = true

instance {β : Type} (a b : String × β) : Decidable (keyPairLe a b) := instDecidableEqBool _ _

/-- Sort a string-keyed association list by key, modelling Python `sorted(d.items())`
for a dict with distinct keys. -/
def sortByKey {β : Type} (m : List (String × β)) : List (String × β) :=
  List.insertionSort keyPairLe m

/-- Sort a list of strings, modelling Python `sorted`. -/
def sortStrings (l : List String) : List String := List.insertionSort strLe l

/-- Sort an integer-keyed association list by key, modelling Python
`sorted(counter.items())`. -/
def sortPairsZ (m : List (ℤ × Nat)) : List (ℤ × Nat) :=
  List.insertionSort (fun a b => a.1 ≤ b.1) m

/-! ## Loosely-typed Python scalar values -/

/-- A loosely typed upstream scalar: Python `None`, an `int`, or a `str`. -/
inductive PyVal where
  | vNone : PyVal
  | vInt : ℤ → PyVal
  | vStr : String → PyVal
deriving DecidableEq

/-- Python `str(v)`. -/
def pyStr : PyVal → String
  | PyVal.vNone => "None"
  | PyVal.vInt n => toString n
  | PyVal.vStr s => s

/-- Value of a nonempty all-digit char list, accumulator style. -/
def digitsValAux (acc : ℕ) : List Char → Option ℕ
  | [] => some acc
  | c :: rest => if c.isDigit then digitsValAux (10 * acc + (c.toNat - 48)) rest else none

/-- Python `int(s)` on a string: optional surrounding whitespace, optional
sign, then decimal digits; anything else raises (`none`). -/
def parseIntStr (s : String) : Option ℤ :=
  match (strTrim s).data with
  | [] => none
  | '+' :: rest =>
    if rest.isEmpty then none else (digitsValAux 0 rest).map (fun n => (n : ℤ))
  | '-' :: rest =>
    if rest.isEmpty then none else (digitsValAux 0 rest).map (fun n => -(n : ℤ))
  | l => (digitsValAux 0 l).map (fun n => (n : ℤ))

/-- Python `int(v)` with `TypeError`/`ValueError` modelled as `none`. -/
def pyToInt : PyVal → Option ℤ
  | PyVal.vNone => none
  | PyVal.vInt n => some n
  | PyVal.vStr s => parseIntStr s

/-! ## Counters and ordered dictionaries (association lists) -/

/-- Increment `m[k]`, appending a fresh key at the end, as Python
`counter[k] += 1` / `d[k] = d.get(k, 0) + 1` does for a dict. -/
def cincr {κ : Type} [DecidableEq κ] (m : List (κ × Nat)) (k : κ) : List (κ × Nat) :=
  match m with
  | [] => [(k, 1)]
  | (k', v) :: rest => if k = k' then (k', v + 1) :: rest else (k', v) :: cincr rest k

/-- Python `counter.get(k, 0)`. -/
def cget {κ : Type} [DecidableEq κ] (m : List (κ × Nat)) (k : κ) : Nat :=
  match m with
  | [] => 0
  | (k', v) :: rest => if k = k' then v else cget rest k

/-- Python `sum(counter.values())`. -/
def csum {κ : Type} (m : List (κ × Nat)) : Nat := (m.map Prod.snd).sum

/-- Increment the inner counter stored at key `k`, creating it if absent, as
`defaultdict(Counter)` / `dict.setdefault(k, {})` followed by an increment. -/
def setIncr {κ ι : Type} [DecidableEq κ] [DecidableEq ι]
    (m : List (κ × List (ι × Nat))) (k : κ) (s : ι) : List (κ × List (ι × Nat)) :=
  match m with
  | [] => [(k, cincr [] s)]
  | (k', c) :: rest =>
    if k = k' then (k', cincr c s) :: rest else (k', c) :: setIncr rest k s

/-- Python `d[k]` with a default for a missing key. -/
def assocGet {α β : Type} [DecidableEq α] (m : List (α × β)) (k : α) (dflt : β) : β :=
  match m with
  | [] => dflt
  | (k', v) :: rest => if k = k' then v else assocGet rest k dflt

/-- Add `d` to the set stored at key `b`, as `defaultdict(set)[b].add(d)`. -/
def addDiv (m : List (String × List String)) (b d : String) : List (String × List String) :=
  match m with
  | [] => [(b, [d])]
  | (b', ds) :: rest =>
    if b = b' then (b', if d ∈ ds then ds else d :: ds) :: rest
    else (b', ds) :: addDiv rest b d

/-! ## key_summary.py -/

/-- The `STATUS_LABELS` table of `key_summary.py`. -/
def STATUS_LABELS : List (ℤ × String) := [(0, "Offline"), (2, "Available"), (4, "In Use")]

/-- Membership in `ALLOWED_STATUS = set(STATUS_LABELS.keys())`. -/
def allowedStatus (s : ℤ) : Prop := s = 0 ∨ s = 2 ∨ s = 4

instance (s : ℤ) : Decidable (allowedStatus s) := by
  unfold allowedStatus
  infer_instance

/-- The function `normalize_status` of `key_summary.py`. -/
def normalize_status (raw_status : PyVal) : Option ℤ :=
  match raw_status with
  | PyVal.vNone => none
  | _ =>
    match pyToInt raw_status with
    | some code =>
      if code = 1 then none
      else if code = 3 then some 2
      else some code
    | none =>
      let s := strLower (strTrim (pyStr raw_status))
      if hasPre "off" s then some 0
      else if hasSub "idle" s then some 2
      else if hasSub "avail" s || hasSub "online" s then some 2
      else if hasSub "in use" s || hasSub "active" s then some 4
      else none

/-- The ordered `BUILDING_PATTERNS` table of `key_summary.py` (Python dicts
preserve insertion order). -/
def BUILDING_PATTERNS : List (String × List String) :=
  [("Classrooms", ["classroom support"]),
   ("Marston Science Library", ["marston"]),
   ("Library West", ["lbw", "lw "]),
   ("Smathers Library", ["smathers"]),
   ("Antevy Hall", ["arch"]),
   ("Architecture & Fine Arts Library", ["afa library"]),
   ("Health Science Center Library", ["hscl"]),
   ("Education Library", ["norman library", "edu"]),
   ("Computer Science & Engineering", ["cse", "computer science"]),
   ("Norman Hall", ["nrn 1st floor", "norman hall"]),
   ("Newell Hall", ["newell"]),
   ("Weil Hall", ["weil"]),
   ("Turlington Hall", ["turlington"]),
   ("Holland Law", ["law library"]),
   ("Hawkins Center", ["uaa"]),
   ("McCarty Hall B", ["mccb"]),
   ("Hub", ["hub 120"])]

/-- The nested pattern loop of `get_building_name`: first table entry (in table
order) one of whose patterns occurs in `text`. -/
def scanPatterns (text : String) : List (String × List String) → Option String
  | [] => none
  | (b, ps) :: rest =>
    if ps.any (fun p => hasSub p text) then some b else scanPatterns text rest

/-- The function `get_building_name` of `key_summary.py`. -/
def get_building_name (division : String) : String :=
  match scanPatterns (strLower division) BUILDING_PATTERNS with
  | some b => b
  | none =>
    if division ≠ "" ∧ (pyWords division).length ≤ 3 then division
    else "Other / Ungrouped"

/-- The function `is_dedicated` of `key_summary.py`; `none` is an absent or
null `Allowed` value. -/
def is_dedicated (allowed_val : Option PyVal) : Bool :=
  match allowed_val with
  | none => false
  | some v =>
    if v = PyVal.vInt 4 ∨ v = PyVal.vStr "4" then true
    else if strLower (strTrim (pyStr v)) = "4" then true
    else false

/-- A raw record of the `/computer/items` payload, restricted to the fields
`key_summary.py` reads (`FIELDS = "ID,Ident,Name,Division,Status,Allowed"`,
plus the lower-case `ident` alias probed by `build_summary`). -/
structure Computer where
  ID : Option String
  Ident : Option String
  identLower : Option String
  Name : Option String
  Division : Option String
  Status : PyVal
  Allowed : Option PyVal
deriving DecidableEq

/-- Python `a or b` for optional strings (`None` and `""` are falsy). -/
def pyOr (a b : Option String) : Option String :=
  match a with
  | none => b
  | some s => if s = "" then b else some s

/-- The identity key of `build_summary`:
`comp.get("ID") or comp.get("Ident") or comp.get("ident") or comp.get("Name")`,
with a falsy result collapsed to `none` (such a record is never deduplicated). -/
def keyOf (c : Computer) : Option String :=
  match pyOr (pyOr (pyOr c.ID c.Ident) c.identLower) c.Name with
  | none => none
  | some s => if s = "" then none else some s

/-- Loop state of `build_summary`. -/
structure KSState where
  seen : List String
  overall : List (ℤ × Nat)
  byDivision : List (String × List (ℤ × Nat))
  byBuilding : List (String × List (ℤ × Nat))
  buildingDivisions : List (String × List String)
deriving DecidableEq

/-- The UFApps / LabVDI / MADE@UF division exclusion of `build_summary`. -/
def divisionExcluded (divLower : String) : Bool :=
  hasSub "ufapps" divLower || hasSub "labvdi" divLower || hasSub "made@uf" divLower

/-- The contribution of one record to the four aggregation maps of `build_summary`. -/
def contribute (st : KSState) (division building : String) (s : ℤ) : KSState :=
  { st with
    overall := cincr st.overall s
    byDivision := setIncr st.byDivision division s
    byBuilding := setIncr st.byBuilding building s
    buildingDivisions := addDiv st.buildingDivisions building division }

/-- The filter chain of the `build_summary` loop body (everything after the
dedup guard): division exclusion, `is_dedicated`, status classification. -/
def processFilters (st : KSState) (comp : Computer) : KSState :=
  let divRaw := comp.Division.getD ""
  if divisionExcluded (strLower divRaw) then st
  else if !is_dedicated comp.Allowed then st
  else
    match normalize_status comp.Status with
    | none => st
    | some s =>
      if allowedStatus s then
        let division := if divRaw = "" then "Unassigned" else divRaw
        contribute st division (get_building_name division) s
      else st

/-- One iteration of the `build_summary` loop: dedup guard, then filters. -/
def ksStep (st : KSState) (comp : Computer) : KSState :=
  match keyOf comp with
  | none => processFilters st comp
  | some k =>
    if k ∈ st.seen then st
    else processFilters { st with seen := k :: st.seen } comp

/-- Initial `build_summary` loop state. -/
def initKS : KSState := ⟨[], [], [], [], []⟩

/-- One row of an output `statuses` list. -/
structure StatusEntry where
  status_code : ℤ
  status_label : String
  count : Nat
deriving DecidableEq

/-- One row of the output `divisions` list. -/
structure DivisionEntry where
  division : String
  total : Nat
  statuses : List StatusEntry
deriving DecidableEq

/-- One row of the output `buildings` list. -/
structure BuildingEntry where
  building : String
  total : Nat
  statuses : List StatusEntry
  divisions : List String
deriving DecidableEq

/-- The summary document written by `key_summary.py` (without the
`generated_at` timestamp, which is I/O). -/
structure KSSummary where
  overall : List StatusEntry
  divisions : List DivisionEntry
  buildings : List BuildingEntry
  total_computers : Nat
deriving DecidableEq

/-- Render a counter as the sorted `statuses` rows of the output document. -/
def statusEntries (counts : List (ℤ × Nat)) : List StatusEntry :=
  (sortPairsZ counts).map (fun p => ⟨p.1, assocGet STATUS_LABELS p.1 "", p.2⟩)

/-- The function `build_summary` of `key_summary.py`. -/
def build_summary (computers : List Computer) : KSSummary :=
  let st := computers.foldl ksStep initKS
  let overall_list := statusEntries st.overall
  let divisions_list :=
    (sortByKey st.byDivision).map
      (fun p => DivisionEntry.mk p.1 (csum p.2) (statusEntries p.2))
  let buildings_list :=
    (sortByKey st.byBuilding).map
      (fun p => BuildingEntry.mk p.1 (csum p.2) (statusEntries p.2)
        (sortStrings (assocGet st.buildingDivisions p.1 [])))
  ⟨overall_list, divisions_list, buildings_list, (overall_list.map StatusEntry.count).sum⟩

/-- The first-write-wins deduplication pass implicit in the `seen_keys` guard
of `build_summary`, with an explicit set of already-seen keys. -/
def dedupAux (seen : List String) : List Computer → List Computer
  | [] => []
  | c :: rest =>
    match keyOf c with
    | none => c :: dedupAux seen rest
    | some k => if k ∈ seen then dedupAux seen rest else c :: dedupAux (k :: seen) rest

/-- Identity-based first-record deduplication (the Deduplicator component). -/
def dedupFirst (l : List Computer) : List Computer := dedupAux [] l

/-! ## xio_summary.py -/

/-- The fields of an XiO device record read by the summary paths:
`device-status` (absent means the `"Unknown"` default applies) and
`device-groupid`. -/
structure DevFields where
  status : Option String
  groupid : Option String
deriving DecidableEq

/-- A raw element of the account-devices payload: the attributes may sit one
level down under a `"device"` key (when that key holds a dict) or at top
level. -/
structure RawDevice where
  nested : Option DevFields
  top : DevFields
deriving DecidableEq

/-- `dev = d.get("device") if isinstance(d.get("device"), dict) else d`. -/
def unwrap (d : RawDevice) : DevFields := d.nested.getD d.top

/-- `dev.get("device-status", "Unknown")`. -/
def getStatus (f : DevFields) : String := f.status.getD "Unknown"

/-- The `GROUPS_OF_INTEREST` table of `xio_summary.py` (id, display label), in
source order. -/
def GROUPS_OF_INTEREST : List (String × String) :=
  [("4b8e5e57-861e-4a73-84d8-f1687ded87ca", "Malachowsky Hall"),
   ("ce2a359d-bc31-487b-98da-34c586a721e0", "Scheduling Panels"),
   ("9f292bd3-2a30-4c65-88fe-d0aa7873ea83", "UF Libraries"),
   ("ec748315-bcff-443d-b2d9-519d653ae43c", "UFIT AV Install Group"),
   ("1b7d0227-f9db-47a0-94ed-14d5d6e9261f", "UFIT Conference Rooms"),
   ("5128cb10-3b9f-4ad9-9e68-284b5e7f1460", "UFIT Learning Spaces")]

/-- `GROUP_IDS_OF_INTEREST = set(GROUPS_OF_INTEREST.keys())`. -/
def GROUP_IDS_OF_INTEREST : List String := GROUPS_OF_INTEREST.map Prod.fst

/-- `parent_map.get(gid)`: a missing key and a stored null parent both give
`none`. -/
def pmGet (pm : List (String × Option String)) (g : String) : Option String :=
  match pm with
  | [] => none
  | (k, v) :: rest => if k = g then v else pmGet rest g

/-- The `while` loop of `find_interest_root_group`, with explicit fuel; the
outer `none` means the fuel ran out before the loop returned (shown impossible
for fuel `pm.length + 2` in `findAux_fuel_sufficient`). -/
def findAux (pm : List (String × Option String)) :
    Nat → List String → Option String → Option (Option String)
  | 0, _, _ => none
  | _ + 1, _, none => some none
  | fuel + 1, visited, some g =>
    if g = "" then some none
    else if g ∈ visited then some none
    else if g ∈ GROUP_IDS_OF_INTEREST then some (some g)
    else findAux pm fuel (g :: visited) (pmGet pm g)

/-- The function `find_interest_root_group` of `xio_summary.py`. -/
def find_interest_root_group (device_group_id : String)
    (parent_map : List (String × Option String)) : Option String :=
  match findAux parent_map (parent_map.length + 2) [] (some device_group_id) with
  | some r => r
  | none => none

/-- One application of the parent step of the loop: a falsy id stops the walk. -/
def stepOnce (pm : List (String × Option String)) : Option String → Option String
  | none => none
  | some g => if g = "" then none else pmGet pm g

/-- The id reached after `k` parent steps from `gid`. -/
def stepIter (pm : List (String × Option String)) (gid : Option String) : Nat → Option String
  | 0 => gid
  | k + 1 => stepIter pm (stepOnce pm gid) k

/-- Exact rational model of Python `round(q, 1)`. -/
def pyRound1 (q : ℚ) : ℚ := ((round (10 * q) : ℤ) : ℚ) / 10

/-- `round((online / total) * 100, 1) if total else 0.0`. -/
def onlinePctOf (online total : Nat) : ℚ :=
  if total ≠ 0 then pyRound1 ((online : ℚ) / (total : ℚ) * 100) else 0

/-- The `"device"` object of `xio-summary.json` as built by `summarize_overall`. -/
structure OverallSummary where
  counts : List (String × Nat)
  total : Nat
  onlinePct : ℚ
deriving DecidableEq

/-- The function `summarize_overall` of `xio_summary.py`. -/
def summarize_overall (devices : List RawDevice) : OverallSummary :=
  let status_counts := devices.foldl (fun m d => cincr m (getStatus (unwrap d))) []
  let total_devices := devices.length
  ⟨status_counts, total_devices, onlinePctOf (cget status_counts "Online") total_devices⟩

/-- The label a device is tallied under by `summarize_groups_of_interest`, or
`none` when one of its `continue` guards fires (falsy group id, no interest
root found). -/
def resolveLabel (parent_map : List (String × Option String)) (d : RawDevice) : Option String :=
  match (unwrap d).groupid with
  | none => none
  | some gid =>
    if gid = "" then none
    else
      match find_interest_root_group gid parent_map with
      | none => none
      | some root =>
        if root = "" then none else some (assocGet GROUPS_OF_INTEREST root "")

/-- One iteration of the device loop of `summarize_groups_of_interest`. -/
def groupStep (parent_map : List (String × Option String))
    (m : List (String × List (String × Nat))) (d : RawDevice) :
    List (String × List (String × Nat)) :=
  match resolveLabel parent_map d with
  | none => m
  | some label => setIncr m label (getStatus (unwrap d))

/-- One element of the `groups` list of `xio-groups-summary.json`. -/
structure GroupBucket where
  name : String
  counts : List (String × Nat)
  total : Nat
  onlinePct : ℚ
deriving DecidableEq

/-- Render one per-label counter as its output bucket. -/
def mkGroupBucket (p : String × List (String × Nat)) : GroupBucket :=
  ⟨p.1, p.2, csum p.2, onlinePctOf (cget p.2 "Online") (csum p.2)⟩

/-- The function `summarize_groups_of_interest` of `xio_summary.py` (its
`groups` list; the `meta` object is I/O). -/
def summarize_groups_of_interest (devices : List RawDevice)
    (parent_map : List (String × Option String)) : List GroupBucket :=
  let seed := GROUPS_OF_INTEREST.map (fun p => (p.2, ([] : List (String × Nat))))
  (devices.foldl (groupStep parent_map) seed).map mkGroupBucket

/-! ## xio_firmware_scan.py -/

/-- `sorted(set(device_ids))`: the canonical ordering of the scan. -/
def sortedDedupIds (ids : List String) : List String := sortStrings ids.dedup

/-- The polling loop of `xio_firmware_scan.main`: attempt `i` polls the id at
index `(last_index + i) % total`; a failed attempt (modelling the rate-limit
`SystemExit`) breaks out of the loop. Returns the successfully polled ids in
order. -/
def scanLoop (ids : List String) (total last : Nat) (ok : Nat → Bool) :
    Nat → Nat → List String
  | _, 0 => []
  | i, rem + 1 =>
    if ok i then ids.getD ((last + i) % total) "" :: scanLoop ids total last ok (i + 1) rem
    else []

/-- The firmware scan of `xio_firmware_scan.main` from the point where the
collected `device_ids` list is fixed: returns `none` when there are no ids
(the early `return`), otherwise the list of ids successfully polled and the
persisted new `lastScanIndex = (last_index + scanned) % total_devices`. -/
def runFirmwareScan (scanBatchSize : Nat) (rawIds : List String) (lastIndex : Nat)
    (ok : Nat → Bool) : Option (List String × Nat) :=
  if rawIds.isEmpty then none
  else
    let device_ids := sortedDedupIds rawIds
    let total := device_ids.length
    let batch := min scanBatchSize total
    let polled := scanLoop device_ids total lastIndex ok 0 batch
    some (polled, (lastIndex + polled.length) % total)

/-! ## Counter lemmas -/

theorem csum_cincr {κ : Type} [DecidableEq κ] (m : List (κ × Nat)) (k : κ) :
    csum (cincr m k) = csum m + 1 := by
  induction m with
  | nil => simp [cincr, csum]
  | cons p rest ih =>
    obtain ⟨k', v⟩ := p
    by_cases h : k = k' <;> simp [cincr, csum, h] at * <;> omega

theorem cget_le_csum {κ : Type} [DecidableEq κ] (m : List (κ × Nat)) (k : κ) :
    cget m k ≤ csum m := by
  induction m with
  | nil => simp [cget, csum]
  | cons p rest ih =>
    obtain ⟨k', v⟩ := p
    by_cases h : k = k'
    · simp [cget, csum, h]
    · simp only [cget, csum, if_neg h, List.map_cons, List.sum_cons] at *
      omega

theorem csum_foldl_cincr {α κ : Type} [DecidableEq κ] (f : α → κ) :
    ∀ (l : List α) (m : List (κ × Nat)),
      csum (l.foldl (fun m d => cincr m (f d)) m) = csum m + l.length := by
  intro l
  induction l with
  | nil => intro m; simp
  | cons d rest ih =>
    intro m
    simp only [List.foldl_cons, ih (cincr m (f d)), csum_cincr, List.length_cons]
    omega

theorem map_fst_setIncr_of_mem {κ ι : Type} [DecidableEq κ] [DecidableEq ι]
    (m : List (κ × List (ι × Nat))) (k : κ) (s : ι) (h : k ∈ m.map Prod.fst) :
    (setIncr m k s).map Prod.fst = m.map Prod.fst := by
  induction m with
  | nil => simp at h
  | cons p rest ih =>
    obtain ⟨k', c⟩ := p
    by_cases hk : k = k'
    · simp [setIncr, hk]
    · simp only [List.map_cons, List.mem_cons] at h
      rcases h with h | h

      · exact absurd h hk
      · simp [setIncr, hk, ih h]

theorem mem_setIncr_of_ne {κ ι : Type} [DecidableEq κ] [DecidableEq ι]
    (m : List (κ × List (ι × Nat))) (k : κ) (s : ι) (L : κ) (c : List (ι × Nat))
    (hmem : (L, c) ∈ m) (hne : L ≠ k) : (L, c) ∈ setIncr m k s := by
  induction m with
  | nil => simp at hmem
  | cons p rest ih =>
    obtain ⟨k', c'⟩ := p
    rcases List.mem_cons.mp hmem with h | h
    · have hk : ¬ k = k' := by
        intro hkk
        apply hne
        injection h with h1 h2
        rw [h1, hkk]
      simp only [setIncr, if_neg hk]
      exact h ▸ List.mem_cons_self _ _
    · by_cases hk : k = k'
      · simp only [setIncr, if_pos hk]
        exact List.mem_cons_of_mem _ h
      · simp only [setIncr, if_neg hk]
        exact List.mem_cons_of_mem _ (ih h)

/-! ## Rounded percentage lemmas -/

theorem onlinePctOf_zero (n : Nat) : onlinePctOf n 0 = 0 := rfl

theorem pyRound1_bounds (q : ℚ) (h0 : 0 ≤ q) (h100 : q ≤ 100) :
    0 ≤ pyRound1 q ∧ pyRound1 q ≤ 100 := by
  have hr : round (10 * q) = ⌊10 * q + 1 / 2⌋ := round_eq _
  have hlow : (0 : ℤ) ≤ round (10 * q) := by
    rw [hr]
    have : (0 : ℚ) ≤ 10 * q + 1 / 2 := by linarith
    exact Int.floor_nonneg.mpr this
  have hhigh : round (10 * q) ≤ 1000 := by
    rw [hr]
    have h1 : (10 * q + 1 / 2 : ℚ) ≤ 1000 + 1 / 2 := by linarith
    have h2 : (⌊(1000 + 1 / 2 : ℚ)⌋ : ℤ) = 1000 := by
      rw [Int.floor_eq_iff]
      norm_num
    calc ⌊10 * q + 1 / 2⌋ ≤ ⌊(1000 + 1 / 2 : ℚ)⌋ := Int.floor_mono h1
      _ = 1000 := h2
  constructor
  · unfold pyRound1
    have : (0 : ℚ) ≤ ((round (10 * q) : ℤ) : ℚ) := by exact_mod_cast hlow
    linarith
  · unfold pyRound1
    have : ((round (10 * q) : ℤ) : ℚ) ≤ 1000 := by exact_mod_cast hhigh
    linarith

theorem onlinePctOf_props (online total : Nat) (h : online ≤ total) :
    0 ≤ onlinePctOf online total ∧ onlinePctOf online total ≤ 100 ∧
      ∃ z : ℤ, onlinePctOf online total = (z : ℚ) / 10 := by
  by_cases ht : total = 0
  · subst ht
    refine ⟨le_refl _, by norm_num [onlinePctOf], 0, by norm_num [onlinePctOf]⟩
  · have htq : (0 : ℚ) < (total : ℚ) := by
      have : 0 < total := Nat.pos_of_ne_zero ht
      exact_mod_cast this
    have hq0 : (0 : ℚ) ≤ (online : ℚ) / (total : ℚ) * 100 := by positivity
    have hq100 : (online : ℚ) / (total : ℚ) * 100 ≤ 100 := by
      have hle : (online : ℚ) ≤ (total : ℚ) := by exact_mod_cast h
      have : (online : ℚ) / (total : ℚ) ≤ 1 := (div_le_one htq).mpr hle
      linarith
    have hb := pyRound1_bounds _ hq0 hq100
    have heq : onlinePctOf online total = pyRound1 ((online : ℚ) / (total : ℚ) * 100) := by
      simp [onlinePctOf, ht]
    refine ⟨heq ▸ hb.1, heq ▸ hb.2, round (10 * ((online : ℚ) / (total : ℚ) * 100)), ?_⟩
    rw [heq]
    rfl

/-! ## String-order lemmas -/

theorem listLe_total : ∀ a b : List Char, listLe a b = true ∨ listLe b a = true := by
  intro a
  induction a with
  | nil => intro b; left; rfl
  | cons x xs ih =>
    intro b
    cases b with
    | nil => right; rfl
    | cons y ys =>
      by_cases h1 : x.toNat < y.toNat
      · left
        simp [listLe, h1]
      · by_cases h2 : y.toNat < x.toNat
        · right
          simp [listLe, h2]
        · rcases ih ys with h | h <;> simp [listLe, h1, h2, h]

theorem listLe_trans :
    ∀ a b c : List Char, listLe a b = true → listLe b c = true → listLe a c = true := by
  intro a
  induction a with
  | nil => intro b c _ _; rfl
  | cons x xs ih =>
    intro b c hab hbc
    cases b with
    | nil => simp [listLe] at hab
    | cons y ys =>
      cases c with
      | nil => simp [listLe] at hbc
      | cons z zs =>
        simp only [listLe] at hab hbc ⊢
        split at hab
        · rename_i hxy
          split
          · rfl
          · rename_i hxz
            split
            · rename_i hzx
              exfalso
              split at hbc
              · rename_i hyz; omega
              · split at hbc
                · exact absurd hbc (by simp)
                · rename_i hyz hzy; omega
            · rename_i hzx
              split at hbc
              · rename_i hyz; omega
              · split at hbc
                · exact absurd hbc (by simp)
                · rename_i hyz hzy; omega
        · split at hab
          · exact absurd hab (by simp)
          · rename_i hxy hyx
            have hxey : x.toNat = y.toNat := by omega
            split at hbc
            · rename_i hyz
              split
              · rfl
              · rename_i hxz; omega
            · split at hbc
              · exact absurd hbc (by simp)
              · rename_i hyz hzy
                have hyez : y.toNat = z.toNat := by omega
                split
                · rfl
                · split
                  · rename_i hzx; omega
                  · exact ih ys zs hab hbc

instance : IsTotal String strLe := ⟨fun a b => listLe_total a.data b.data⟩

instance : IsTrans String strLe := ⟨fun a b c => listLe_trans a.data b.data c.data⟩

instance {β : Type} : IsTotal (String × β) keyPairLe :=
  ⟨fun a b => listLe_total a.1.data b.1.data⟩

instance {β : Type} : IsTrans (String × β) keyPairLe :=
  ⟨fun a b c => listLe_trans a.1.data b.1.data c.1.data⟩

instance : IsTotal (ℤ × Nat) (fun a b => a.1 ≤ b.1) := ⟨fun a b => Int.le_total a.1 b.1⟩

instance : IsTrans (ℤ × Nat) (fun a b => a.1 ≤ b.1) := ⟨fun _ _ _ => Int.le_trans⟩

theorem sorted_sortByKey {β : Type} (m : List (String × β)) :
    List.Sorted keyPairLe (sortByKey m) :=
  List.sorted_insertionSort keyPairLe m

theorem sorted_map_fst_sortByKey {β : Type} (m : List (String × β)) :
    List.Sorted strLe ((sortByKey m).map Prod.fst) :=
  List.Pairwise.map Prod.fst (fun _ _ h => h) (sorted_sortByKey m)

theorem statusEntries_count_sum (c : List (ℤ × Nat)) :
    ((statusEntries c).map StatusEntry.count).sum = csum c := by
  have hperm : List.Perm (sortPairsZ c) c := List.perm_insertionSort _ c
  have h1 : (statusEntries c).map StatusEntry.count = (sortPairsZ c).map Prod.snd := by
    simp [statusEntries, List.map_map]
  rw [h1]
  exact (hperm.map Prod.snd).sum_eq

/-! ## Group-hierarchy-resolver lemmas -/

/-- All non-null parent ids stored in a parent map. -/
def pmValues (pm : List (String × Option String)) : List String :=
  pm.filterMap Prod.snd

theorem pmGet_mem_values (pm : List (String × Option String)) (g g' : String)
    (h : pmGet pm g = some g') : g' ∈ pmValues pm := by
  induction pm with
  | nil => simp [pmGet] at h
  | cons p rest ih =>
    obtain ⟨k, v⟩ := p
    by_cases hk : k = g
    · simp only [pmGet, if_pos hk] at h
      subst h
      simp [pmValues]
    · simp only [pmGet, if_neg hk] at h
      have := ih h
      cases v with
      | none => simpa [pmValues] using this
      | some w =>
        simp only [pmValues, List.filterMap_cons] at this ⊢
        exact List.mem_cons_of_mem _ this

theorem length_filter_mono {α : Type} (l : List α) (p q : α → Bool)
    (h : ∀ x, p x = true → q x = true) :
    (l.filter p).length ≤ (l.filter q).length := by
  induction l with
  | nil => simp
  | cons a rest ih =>
    by_cases hp : p a = true
    · simp [List.filter_cons, hp, h a hp]
      omega
    · simp only [List.filter_cons]
      rw [Bool.not_eq_true] at hp
      rw [hp]
      cases hq : q a <;> simp <;> omega

theorem length_filter_visited_lt (l : List String) (g : String) (visited : List String)
    (hg : g ∈ l) (hnv : g ∉ visited) :
    (l.filter (fun x => decide (x ∉ g :: visited))).length <
      (l.filter (fun x => decide (x ∉ visited))).length := by
  induction l with
  | nil => simp at hg
  | cons a rest ih =>
    by_cases ha : a = g
    · subst ha
      have h1 : (decide (a ∉ a :: visited)) = false := by simp
      have h2 : (decide (a ∉ visited)) = true := by simpa using hnv
      have hmono := length_filter_mono rest
        (fun x => decide (x ∉ a :: visited)) (fun x => decide (x ∉ visited))
        (fun x hx => by
          simp only [decide_eq_true_eq] at hx ⊢
          intro hmem
          exact hx (List.mem_cons_of_mem _ hmem))
      simp [List.filter_cons, h1, h2, hnv] at hmono ⊢
      omega
    · have hg' : g ∈ rest := by
        rcases List.mem_cons.mp hg with h | h
        · exact absurd h.symm ha
        · exact h
      by_cases hv : a ∈ visited
      · have hrec := ih hg'
        simp [List.filter_cons, hv, ha] at hrec ⊢
        omega
      · have hrec := ih hg'
        simp [List.filter_cons, hv, ha] at hrec ⊢
        omega

theorem findAux_inner (pm : List (String × Option String)) :
    ∀ (fuel : Nat) (visited : List String) (gid : Option String),
      ((pmValues pm).filter (fun x => decide (x ∉ visited))).length < fuel →
      (∀ g, gid = some g → g ≠ "" → g ∉ visited → g ∈ pmValues pm) →
      findAux pm fuel visited gid ≠ none := by
  intro fuel
  induction fuel with
  | zero => intro visited gid hm _; omega
  | succ fuel ih =>
    intro visited gid hm hinv
    cases gid with
    | none => simp [findAux]
    | some g =>
      by_cases hgE : g = ""
      · simp [findAux, hgE]
      · by_cases hgv : g ∈ visited
        · simp [findAux, hgE, hgv]
        · by_cases hgi : g ∈ GROUP_IDS_OF_INTEREST
          · simp [findAux, hgE, hgv, hgi]
          · have hstep : findAux pm (fuel + 1) visited (some g) =
                findAux pm fuel (g :: visited) (pmGet pm g) := by
              simp [findAux, hgE, hgv, hgi]
            rw [hstep]
            apply ih
            · have hgmem : g ∈ pmValues pm := hinv g rfl hgE hgv
              have := length_filter_visited_lt (pmValues pm) g visited hgmem hgv
              omega
            · intro g' hg' _ _
              exact pmGet_mem_values pm g g' hg'

theorem findAux_fuel_sufficient (pm : List (String × Option String)) (g0 : String) :
    findAux pm (pm.length + 2) [] (some g0) ≠ none := by
  have hunfold : findAux pm (pm.length + 2) [] (some g0) =
      if g0 = "" then some none
      else if g0 ∈ ([] : List String) then some none
      else if g0 ∈ GROUP_IDS_OF_INTEREST then some (some g0)
      else findAux pm (pm.length + 1) [g0] (pmGet pm g0) := rfl
  rw [hunfold]
  by_cases hE : g0 = ""
  · simp [hE]
  · by_cases hI : g0 ∈ GROUP_IDS_OF_INTEREST
    · simp [hE, hI]
    · simp only [hE, hI, List.not_mem_nil, if_false, if_neg]
      apply findAux_inner
      · have h1 : ((pmValues pm).filter (fun x => decide (x ∉ [g0]))).length ≤
            (pmValues pm).length := List.length_filter_le _ _
        have h2 : (pmValues pm).length ≤ pm.length := List.length_filterMap_le _ _
        omega
      · intro g' hg' _ _
        exact pmGet_mem_values pm g0 g' hg'

theorem findAux_sound (pm : List (String × Option String)) :
    ∀ (fuel : Nat) (visited : List String) (gid : Option String) (r : String),
      findAux pm fuel visited gid = some (some r) →
      r ∈ GROUP_IDS_OF_INTEREST ∧
        ∃ k, stepIter pm gid k = some r ∧
          ∀ j, j < k → ∀ x, stepIter pm gid j = some x → x ∉ GROUP_IDS_OF_INTEREST := by
  intro fuel
  induction fuel with
  | zero => intro visited gid r h; simp [findAux] at h
  | succ fuel ih =>
    intro visited gid r h
    cases gid with
    | none => simp [findAux] at h
    | some g =>
      by_cases hgE : g = ""
      · simp [findAux, hgE] at h
      · by_cases hgv : g ∈ visited
        · simp [findAux, hgE, hgv] at h
        · by_cases hgi : g ∈ GROUP_IDS_OF_INTEREST
          · simp only [findAux, hgE, hgv, hgi, if_neg, if_pos, ite_true, ite_false,
              if_true] at h
            have hr : g = r := by
              simp [findAux, hgE, hgv, hgi] at h
              exact h
            subst hr
            refine ⟨hgi, 0, rfl, ?_⟩
            intro j hj
            omega
          · have hstep : findAux pm (fuel + 1) visited (some g) =
                findAux pm fuel (g :: visited) (pmGet pm g) := by
              simp [findAux, hgE, hgv, hgi]
            rw [hstep] at h
            obtain ⟨hrI, k, hk, hmin⟩ := ih (g :: visited) (pmGet pm g) r h
            have honce : stepOnce pm (some g) = pmGet pm g := by
              simp [stepOnce, hgE]
            refine ⟨hrI, k + 1, ?_, ?_⟩
            · show stepIter pm (stepOnce pm (some g)) k = some r
              rw [honce]
              exact hk
            · intro j hj x hx
              cases j with
              | zero =>
                simp only [stepIter] at hx
                injection hx with hx
                exact hx ▸ hgi
              | succ j' =>
                have hx' : stepIter pm (pmGet pm g) j' = some x := by
                  show stepIter pm (pmGet pm g) j' = some x
                  rw [← honce]
                  exact hx
                exact hmin j' (by omega) x hx'

theorem find_root_sound (g : String) (pm : List (String × Option String)) (r : String)
    (h : find_interest_root_group g pm = some r) :
    r ∈ GROUP_IDS_OF_INTEREST ∧
      ∃ k, stepIter pm (some g) k = some r ∧
        ∀ j, j < k → ∀ x, stepIter pm (some g) j = some x → x ∉ GROUP_IDS_OF_INTEREST := by
  unfold find_interest_root_group at h
  cases hf : findAux pm (pm.length + 2) [] (some g) with
  | none => rw [hf] at h; simp at h
  | some v =>
    rw [hf] at h
    simp at h
    subst h
    exact findAux_sound pm _ [] (some g) r hf

theorem find_root_mem (g : String) (pm : List (String × Option String)) (r : String)
    (h : find_interest_root_group g pm = some r) : r ∈ GROUP_IDS_OF_INTEREST :=
  (find_root_sound g pm r h).1

theorem stepIter_none (pm : List (String × Option String)) :
    ∀ k, stepIter pm none k = none := by
  intro k
  induction k with
  | zero => rfl
  | succ k ih => exact ih

theorem stepIter_succ_alt (pm : List (String × Option String)) :
    ∀ (k : Nat) (gid : Option String),
      stepIter pm gid (k + 1) = stepOnce pm (stepIter pm gid k) := by
  intro k
  induction k with
  | zero => intro gid; rfl
  | succ k ih =>
    intro gid
    show stepIter pm (stepOnce pm gid) (k + 1) = _
    rw [ih (stepOnce pm gid)]
    rfl

theorem stepIter_shift (pm : List (String × Option String)) (i j : Nat)
    (gid : Option String) (h : stepIter pm gid i = stepIter pm gid j) :
    ∀ n, stepIter pm gid (i + n) = stepIter pm gid (j + n) := by
  intro n
  induction n with
  | zero => simpa using h
  | succ n ih =>
    have hi : i + (n + 1) = (i + n) + 1 := by omega
    have hj : j + (n + 1) = (j + n) + 1 := by omega
    rw [hi, hj, stepIter_succ_alt, stepIter_succ_alt, ih]

theorem findAux_not_some_none (pm : List (String × Option String)) :
    ∀ (fuel k : Nat) (visited : List String) (gid : Option String) (r : String),
      stepIter pm gid k = some r →
      r ∈ GROUP_IDS_OF_INTEREST →
      (∀ j, j < k → ∀ x, stepIter pm gid j = some x → x ∉ GROUP_IDS_OF_INTEREST) →
      (∀ i j, i < j → j ≤ k → stepIter pm gid i ≠ stepIter pm gid j) →
      (∀ j, j ≤ k → ∀ x, stepIter pm gid j = some x → x ∉ visited) →
      findAux pm fuel visited gid ≠ some none := by
  intro fuel
  induction fuel with
  | zero =>
    intro k visited gid r _ _ _ _ _
    simp [findAux]
  | succ fuel ih =>
    intro k visited gid r hk hr hmin hdist hvis
    cases gid with
    | none => rw [stepIter_none] at hk; exact absurd hk (by simp)
    | some g =>
      by_cases hgE : g = ""
      · subst hgE
        cases k with
        | zero =>
          injection hk with hk
          subst hk
          exact absurd hr (by decide)
        | succ k' =>
          have h1 : stepIter pm (some "") (k' + 1) = stepIter pm none k' := rfl
          rw [h1, stepIter_none] at hk
          exact absurd hk (by simp)
      · by_cases hgv : g ∈ visited
        · exact absurd (hvis 0 (by omega) g rfl) (by simp [hgv])
        · by_cases hgi : g ∈ GROUP_IDS_OF_INTEREST
          · simp [findAux, hgE, hgv, hgi]
          · have hkpos : k ≠ 0 := by
              intro h0
              subst h0
              injection hk with hk
              subst hk
              exact hgi hr
            obtain ⟨k', rfl⟩ : ∃ k', k = k' + 1 := ⟨k - 1, by omega⟩
            have hstep : findAux pm (fuel + 1) visited (some g) =
                findAux pm fuel (g :: visited) (pmGet pm g) := by
              simp [findAux, hgE, hgv, hgi]
            rw [hstep]
            have hchain : ∀ j, stepIter pm (some g) (j + 1) = stepIter pm (pmGet pm g) j := by
              intro j
              show stepIter pm (stepOnce pm (some g)) j = _
              simp [stepOnce, hgE]
            apply ih k' (g :: visited) (pmGet pm g) r
            · rw [← hchain]
              exact hk
            · exact hr
            · intro j hj x hx
              exact hmin (j + 1) (by omega) x (by rw [hchain]; exact hx)
            · intro i j hij hjk
              have := hdist (i + 1) (j + 1) (by omega) (by omega)
              rw [hchain, hchain] at this
              exact this
            · intro j hj x hx
              have hx' : stepIter pm (some g) (j + 1) = some x := by
                rw [hchain]
                exact hx
              intro hmem
              rcases List.mem_cons.mp hmem with hmg | hmv
              · subst hmg
                exact hdist 0 (j + 1) (by omega) (by omega) (by rw [hx']; rfl)
              · exact (hvis (j + 1) (by omega) x hx') hmv

theorem find_root_complete (g : String) (pm : List (String × Option String)) (r : String)
    (k : Nat) (hk : stepIter pm (some g) k = some r) (hr : r ∈ GROUP_IDS_OF_INTEREST)
    (hmin : ∀ j, j < k → ∀ x, stepIter pm (some g) j = some x → x ∉ GROUP_IDS_OF_INTEREST) :
    find_interest_root_group g pm = some r := by
  have hdist : ∀ i j, i < j → j ≤ k → stepIter pm (some g) i ≠ stepIter pm (some g) j := by
    intro i j hij hjk heq
    have hshift := stepIter_shift pm i j (some g) heq (k - j)
    have hik : i + (k - j) < k := by omega
    have hjk' : j + (k - j) = k := by omega
    rw [hjk', hk] at hshift
    exact hmin (i + (k - j)) hik r hshift hr
  have hnsn := findAux_not_some_none pm (pm.length + 2) k [] (some g) r hk hr hmin hdist
    (fun j _ x _ => List.not_mem_nil x)
  have hterm := findAux_fuel_sufficient pm g
  unfold find_interest_root_group
  cases hres : findAux pm (pm.length + 2) [] (some g) with
  | none => exact absurd hres hterm
  | some v =>
    cases v with
    | none => exact absurd hres hnsn
    | some r' =>
      obtain ⟨hr', k', hk', hmin'⟩ := findAux_sound pm _ [] (some g) r' hres
      have hkk : k' = k := by
        rcases Nat.lt_trichotomy k' k with h | h | h
        · exact absurd hr' (hmin k' h r' hk')
        · exact h
        · exact absurd hr (hmin' k h r hk)
      rw [hkk] at hk'
      rw [hk] at hk'
      injection hk' with hk'
      rw [hk']

theorem find_root_none_of_no_interest (g : String) (pm : List (String × Option String))
    (h : ∀ j x, stepIter pm (some g) j = some x → x ∉ GROUP_IDS_OF_INTEREST) :
    find_interest_root_group g pm = none := by
  cases hres : find_interest_root_group g pm with
  | none => rfl
  | some r =>
    obtain ⟨hr, k, hk, _⟩ := find_root_sound g pm r hres
    exact absurd hr (h k r hk)

theorem stepIter_add (pm : List (String × Option String)) :
    ∀ (m n : Nat) (gid : Option String),
      stepIter pm gid (m + n) = stepIter pm (stepIter pm gid m) n := by
  intro m
  induction m with
  | zero =>
    intro n gid
    rw [Nat.zero_add]
    rfl
  | succ m ih =>
    intro n gid
    have hmn : m + 1 + n = (m + n) + 1 := by omega
    rw [hmn]
    show stepIter pm (stepOnce pm gid) (m + n) = stepIter pm (stepIter pm gid (m + 1)) n
    exact ih n (stepOnce pm gid)

theorem find_root_none_of_root (g : String) (pm : List (String × Option String)) (k : Nat)
    (hnone : stepIter pm (some g) k = none)
    (h : ∀ j, j < k → ∀ x, stepIter pm (some g) j = some x → x ∉ GROUP_IDS_OF_INTEREST) :
    find_interest_root_group g pm = none := by
  apply find_root_none_of_no_interest
  intro j x hx
  by_cases hjk : j < k
  · exact h j hjk x hx
  · exfalso
    have hj : j = k + (j - k) := by omega
    rw [hj, stepIter_add, hnone, stepIter_none] at hx
    exact absurd hx (by simp)

theorem processFilters_seen (st : KSState) (comp : Computer) :
    (processFilters st comp).seen = st.seen := by
  simp only [processFilters, contribute]
  repeat' split
  all_goals rfl

theorem foldl_ksStep_dedupAux :
    ∀ (l : List Computer) (st : KSState),
      (dedupAux st.seen l).foldl ksStep st = l.foldl ksStep st := by
  intro l
  induction l with
  | nil => intro st; rfl
  | cons c rest ih =>
    intro st
    cases hk : keyOf c with
    | none =>
      have hstep : ksStep st c = processFilters st c := by simp [ksStep, hk]
      have hseen : (ksStep st c).seen = st.seen := by rw [hstep, processFilters_seen]
      simp only [dedupAux, hk, List.foldl_cons]
      rw [show st.seen = (ksStep st c).seen from hseen.symm]
      exact ih (ksStep st c)
    | some k =>
      by_cases hmem : k ∈ st.seen
      · have hstep : ksStep st c = st := by simp [ksStep, hk, hmem]
        simp only [dedupAux, hk, if_pos hmem, List.foldl_cons, hstep]
        exact ih st
      · have hstep : ksStep st c = processFilters { st with seen := k :: st.seen } c := by
          simp [ksStep, hk, hmem]
        have hseen : (ksStep st c).seen = k :: st.seen := by
          rw [hstep, processFilters_seen]
        simp only [dedupAux, hk, if_neg hmem, List.foldl_cons]
        rw [show k :: st.seen = (ksStep st c).seen from hseen.symm]
        exact ih (ksStep st c)

theorem build_summary_dedupFirst (computers : List Computer) :
    build_summary computers = build_summary (dedupFirst computers) := by
  have h : (dedupFirst computers).foldl ksStep initKS = computers.foldl ksStep initKS :=
    foldl_ksStep_dedupAux computers initKS
  unfold build_summary
  rw [h]

theorem dedupAux_idem :
    ∀ (l : List Computer) (seen : List String),
      dedupAux seen (dedupAux seen l) = dedupAux seen l := by
  intro l
  induction l with
  | nil => intro seen; rfl
  | cons c rest ih =>
    intro seen
    cases hk : keyOf c with
    | none => simp only [dedupAux, hk, ih seen]
    | some k =>
      by_cases hmem : k ∈ seen
      · simp only [dedupAux, hk, if_pos hmem]
        exact ih seen
      · simp only [dedupAux, hk, if_neg hmem, ih (k :: seen)]

theorem dedupAux_filter_keyless :
    ∀ (l : List Computer) (seen : List String),
      (dedupAux seen l).filter (fun c => (keyOf c).isNone) =
        l.filter (fun c => (keyOf c).isNone) := by
  intro l
  induction l with
  | nil => intro seen; rfl
  | cons c rest ih =>
    intro seen
    cases hk : keyOf c with
    | none =>
      simp only [dedupAux, hk]
      rw [List.filter_cons_of_pos (by simp [hk]), List.filter_cons_of_pos (by simp [hk]),
        ih seen]
    | some k =>
      by_cases hmem : k ∈ seen
      · simp only [dedupAux, hk, if_pos hmem]
        rw [List.filter_cons_of_neg (by simp [hk]), ih seen]
      · simp only [dedupAux, hk, if_neg hmem]
        rw [List.filter_cons_of_neg (by simp [hk]), List.filter_cons_of_neg (by simp [hk]),
          ih (k :: seen)]

/-! ## summarize_groups_of_interest loop lemmas -/

theorem assocGet_mem_snd {α β : Type} [DecidableEq α] (m : List (α × β)) (k : α) (dflt : β)
    (h : k ∈ m.map Prod.fst) : assocGet m k dflt ∈ m.map Prod.snd := by
  induction m with
  | nil => simp at h
  | cons p rest ih =>
    obtain ⟨k', v⟩ := p
    by_cases hk : k = k'
    · simp [assocGet, hk]
    · simp only [List.map_cons, List.mem_cons] at h
      rcases h with h | h
      · exact absurd h hk
      · simp only [assocGet, if_neg hk, List.map_cons]
        exact List.mem_cons_of_mem _ (ih h)

theorem resolveLabel_mem_labels (pm : List (String × Option String)) (d : RawDevice)
    (L : String) (h : resolveLabel pm d = some L) : L ∈ GROUPS_OF_INTEREST.map Prod.snd := by
  unfold resolveLabel at h
  cases hg : (unwrap d).groupid with
  | none => rw [hg] at h; simp at h
  | some gid =>
    simp only [hg] at h
    by_cases hE : gid = ""
    · rw [if_pos hE] at h; simp at h
    · rw [if_neg hE] at h
      cases hf : find_interest_root_group gid pm with
      | none => rw [hf] at h; simp at h
      | some root =>
        simp only [hf] at h
        by_cases hrE : root = ""
        · rw [if_pos hrE] at h; simp at h
        · rw [if_neg hrE] at h
          injection h with h
          subst h
          exact assocGet_mem_snd _ _ _ (find_root_mem gid pm root hf)

theorem map_fst_foldl_groupStep (pm : List (String × Option String)) :
    ∀ (devices : List RawDevice) (m : List (String × List (String × Nat))),
      (∀ d L, d ∈ devices → resolveLabel pm d = some L → L ∈ m.map Prod.fst) →
      (devices.foldl (groupStep pm) m).map Prod.fst = m.map Prod.fst := by
  intro devices
  induction devices with
  | nil => intro m _; rfl
  | cons d rest ih =>
    intro m hm
    simp only [List.foldl_cons]
    cases hr : resolveLabel pm d with
    | none =>
      have hstep : groupStep pm m d = m := by simp [groupStep, hr]
      rw [hstep]
      exact ih m (fun d' L hd' hL => hm d' L (List.mem_cons_of_mem _ hd') hL)
    | some L =>
      have hLm : L ∈ m.map Prod.fst := hm d L (List.mem_cons_self _ _) hr
      have hstep : groupStep pm m d = setIncr m L (getStatus (unwrap d)) := by
        simp [groupStep, hr]
      rw [hstep]
      have hkeys := map_fst_setIncr_of_mem m L (getStatus (unwrap d)) hLm
      have hrec := ih (setIncr m L (getStatus (unwrap d)))
        (fun d' L' hd' hL' => by
          rw [hkeys]
          exact hm d' L' (List.mem_cons_of_mem _ hd') hL')
      rw [hrec, hkeys]

theorem mem_foldl_groupStep_preserved (pm : List (String × Option String)) (L : String)
    (c : List (String × Nat)) :
    ∀ (devices : List RawDevice) (m : List (String × List (String × Nat))),
      (∀ d ∈ devices, resolveLabel pm d ≠ some L) → (L, c) ∈ m →
      (L, c) ∈ devices.foldl (groupStep pm) m := by
  intro devices
  induction devices with
  | nil => intro m _ hmem; exact hmem
  | cons d rest ih =>
    intro m hno hmem
    simp only [List.foldl_cons]
    cases hr : resolveLabel pm d with
    | none =>
      have hstep : groupStep pm m d = m := by simp [groupStep, hr]
      rw [hstep]
      exact ih m (fun d' hd' => hno d' (List.mem_cons_of_mem _ hd')) hmem
    | some L' =>
      have hne : L ≠ L' := by
        intro hLL
        exact hno d (List.mem_cons_self _ _) (hLL ▸ hr)
      have hstep : groupStep pm m d = setIncr m L' (getStatus (unwrap d)) := by
        simp [groupStep, hr]
      rw [hstep]
      exact ih _ (fun d' hd' => hno d' (List.mem_cons_of_mem _ hd'))
        (mem_setIncr_of_ne m L' (getStatus (unwrap d)) L c hmem hne)

/-! ## Firmware-scan loop lemmas -/

theorem scanLoop_length_le (ids : List String) (total last : Nat) (ok : Nat → Bool) :
    ∀ (rem i : Nat), (scanLoop ids total last ok i rem).length ≤ rem := by
  intro rem
  induction rem with
  | zero => intro i; simp [scanLoop]
  | succ rem ih =>
    intro i
    by_cases hok : ok i = true
    · simp only [scanLoop, if_pos hok, List.length_cons]
      have := ih (i + 1)
      omega
    · simp [scanLoop, hok]

theorem scanLoop_mapped (ids : List String) (total last : Nat) (ok : Nat → Bool) :
    ∀ (rem i : Nat),
      scanLoop ids total last ok i rem =
        (List.range (scanLoop ids total last ok i rem).length).map
          (fun j => ids.getD ((last + (i + j)) % total) "") := by
  intro rem
  induction rem with
  | zero => intro i; rfl
  | succ rem ih =>
    intro i
    by_cases hok : ok i = true
    · simp only [scanLoop, if_pos hok, List.length_cons]
      rw [List.range_succ_eq_map, List.map_cons, List.map_map]
      congr 1
      rw [ih (i + 1)]
      simp only [List.length_map, List.length_range]
      apply List.map_congr_left
      intro a _
      simp only [Function.comp_apply]
      have h1 : i + 1 + a = i + (a + 1) := by omega
      rw [h1]
    · simp [scanLoop, hok]

theorem scanLoop_prefix_length (ids : List String) (total last k : Nat) :
    ∀ (rem i : Nat),
      (scanLoop ids total last (fun j => decide (j < k)) i rem).length = min (k - i) rem := by
  intro rem
  induction rem with
  | zero => intro i; simp [scanLoop]
  | succ rem ih =>
    intro i
    by_cases hik : i < k
    · have hd : (decide (i < k)) = true := by simpa using hik
      simp [scanLoop, hd, ih]
      omega
    · have hd : (decide (i < k)) = false := by simpa using hik
      simp only [scanLoop, hd]
      rw [if_neg Bool.false_ne_true]
      have hki : k - i = 0 := by omega
      simp [hki]
/-! ## Remaining helper lemmas -/

theorem scanPatterns_eq_find (text : String) :
    ∀ l : List (String × List String),
      scanPatterns text l =
        (l.find? (fun e => e.2.any (fun p => hasSub p text))).map Prod.fst := by
  intro l
  induction l with
  | nil => rfl
  | cons e rest ih =>
    obtain ⟨b, ps⟩ := e
    by_cases h : ps.any (fun p => hasSub p text) = true
    · rw [scanPatterns, if_pos h]
      simp [h]
    · rw [scanPatterns, if_neg h, ih]
      simp [h]

theorem ksStep_counters_of_skip (st : KSState) (comp : Computer)
    (h : ∀ st' : KSState, processFilters st' comp = st') :
    (ksStep st comp).overall = st.overall ∧
      (ksStep st comp).byDivision = st.byDivision ∧
      (ksStep st comp).byBuilding = st.byBuilding := by
  cases hk : keyOf comp with
  | none =>
    have hstep : ksStep st comp = processFilters st comp := by simp [ksStep, hk]
    rw [hstep, h st]
    exact ⟨rfl, rfl, rfl⟩
  | some k =>
    by_cases hmem : k ∈ st.seen
    · have hstep : ksStep st comp = st := by simp [ksStep, hk, hmem]
      rw [hstep]
      exact ⟨rfl, rfl, rfl⟩
    · have hstep : ksStep st comp = processFilters { st with seen := k :: st.seen } comp := by
        simp [ksStep, hk, hmem]
      rw [hstep, h { st with seen := k :: st.seen }]
      exact ⟨rfl, rfl, rfl⟩

theorem processFilters_skip_of_status (st : KSState) (comp : Computer)
    (h : ∀ s, normalize_status comp.Status = some s → ¬ allowedStatus s) :
    processFilters st comp = st := by
  simp only [processFilters]
  split
  · rfl
  split
  · rfl
  cases hn : normalize_status comp.Status with
  | none => rfl
  | some s => exact if_neg (h s hn)

theorem processFilters_skip_of_filters (st : KSState) (comp : Computer)
    (h : ¬(is_dedicated comp.Allowed = true ∧
        divisionExcluded (strLower (comp.Division.getD "")) = false)) :
    processFilters st comp = st := by
  simp only [processFilters]
  by_cases h1 : divisionExcluded (strLower (comp.Division.getD "")) = true
  · rw [if_pos h1]
  · rw [if_neg h1]
    have h2 : is_dedicated comp.Allowed = false := by
      cases hd : is_dedicated comp.Allowed
      · rfl
      · exact absurd ⟨hd, by simpa using h1⟩ h
    rw [if_pos (by simp [h2])]

theorem summarize_groups_names (devices : List RawDevice)
    (pm : List (String × Option String)) :
    (summarize_groups_of_interest devices pm).map GroupBucket.name =
      GROUPS_OF_INTEREST.map Prod.snd := by
  unfold summarize_groups_of_interest
  rw [List.map_map]
  have hseed :
      ((GROUPS_OF_INTEREST.map (fun p => (p.2, ([] : List (String × Nat))))).map Prod.fst) =
        GROUPS_OF_INTEREST.map Prod.snd := by
    rw [List.map_map]
    rfl
  have hkeys := map_fst_foldl_groupStep pm devices
    (GROUPS_OF_INTEREST.map (fun p => (p.2, ([] : List (String × Nat)))))
    (fun d L _ hL => by
      rw [hseed]
      exact resolveLabel_mem_labels pm d L hL)
  have hcomp : (GroupBucket.name ∘ mkGroupBucket) =
      (Prod.fst : String × List (String × Nat) → String) := rfl
  rw [hcomp, hkeys, hseed]


/-! ## Claim theorems -/

/-- C1: every aggregation bucket at every granularity (overall, per
interest-group, per division, per building) satisfies
`total = sum(statusCounts.values())`; where an `onlinePct` is present it lies
in `[0, 100]`, is an integer multiple of one tenth (rounded to one decimal),
and equals `0.0` whenever `total = 0`. -/
theorem claim_C1_bucket_invariants :
    (∀ devices : List RawDevice,
      (summarize_overall devices).total = csum (summarize_overall devices).counts ∧
      0 ≤ (summarize_overall devices).onlinePct ∧
      (summarize_overall devices).onlinePct ≤ 100 ∧
      (∃ z : ℤ, (summarize_overall devices).onlinePct = (z : ℚ) / 10) ∧
      ((summarize_overall devices).total = 0 → (summarize_overall devices).onlinePct = 0)) ∧
    (∀ (devices : List RawDevice) (pm : List (String × Option String)) (b : GroupBucket),
      b ∈ summarize_groups_of_interest devices pm →
      b.total = csum b.counts ∧
      0 ≤ b.onlinePct ∧ b.onlinePct ≤ 100 ∧
      (∃ z : ℤ, b.onlinePct = (z : ℚ) / 10) ∧
      (b.total = 0 → b.onlinePct = 0)) ∧
    (∀ (computers : List Computer) (e : DivisionEntry),
      e ∈ (build_summary computers).divisions →
      e.total = (e.statuses.map StatusEntry.count).sum) ∧
    (∀ (computers : List Computer) (e : BuildingEntry),
      e ∈ (build_summary computers).buildings →
      e.total = (e.statuses.map StatusEntry.count).sum) ∧
    (∀ computers : List Computer,
      (build_summary computers).total_computers =
        ((build_summary computers).overall.map StatusEntry.count).sum) := by
  refine ⟨?_, ?_, ?_, ?_, fun computers => rfl⟩
  · intro devices
    have hcs : csum (devices.foldl (fun m d => cincr m (getStatus (unwrap d))) []) =
        devices.length := by
      have h := csum_foldl_cincr (fun d => getStatus (unwrap d)) devices []
      simpa [csum] using h
    have htot : (summarize_overall devices).total = devices.length := rfl
    have hcounts : (summarize_overall devices).counts =
        devices.foldl (fun m d => cincr m (getStatus (unwrap d))) [] := rfl
    have hle : cget ((summarize_overall devices).counts) "Online" ≤
        (summarize_overall devices).total := by
      rw [hcounts, htot, ← hcs]
      exact cget_le_csum _ _
    have hpct : (summarize_overall devices).onlinePct =
        onlinePctOf (cget ((summarize_overall devices).counts) "Online")
          ((summarize_overall devices).total) := rfl
    obtain ⟨hp0, hp100, z, hz⟩ := onlinePctOf_props _ _ hle
    refine ⟨by rw [htot, hcounts, hcs], by rw [hpct]; exact hp0, by rw [hpct]; exact hp100,
      ⟨z, by rw [hpct]; exact hz⟩, ?_⟩
    intro h0
    rw [hpct, h0]
    exact onlinePctOf_zero _
  · intro devices pm b hb
    obtain ⟨p, hp, rfl⟩ := List.mem_map.mp hb
    obtain ⟨hp0, hp100, z, hz⟩ :=
      onlinePctOf_props (cget p.2 "Online") (csum p.2) (cget_le_csum _ _)
    refine ⟨rfl, hp0, hp100, ⟨z, hz⟩, ?_⟩
    intro h0
    have h0' : csum p.2 = 0 := h0
    show onlinePctOf (cget p.2 "Online") (csum p.2) = 0
    rw [h0']
    exact onlinePctOf_zero _
  · intro computers e he
    obtain ⟨p, hp, rfl⟩ := List.mem_map.mp he
    show csum p.2 = ((statusEntries p.2).map StatusEntry.count).sum
    rw [statusEntries_count_sum]
  · intro computers e he
    obtain ⟨p, hp, rfl⟩ := List.mem_map.mp he
    show csum p.2 = ((statusEntries p.2).map StatusEntry.count).sum
    rw [statusEntries_count_sum]

/-- C1 witness: the empty interest-group bucket of an empty run satisfies the
invariants, instantiated through `claim_C1_bucket_invariants`. -/
theorem claim_C1_witness :
    (GroupBucket.mk "Malachowsky Hall" [] 0 0).total =
        csum (GroupBucket.mk "Malachowsky Hall" [] 0 0).counts ∧
      (GroupBucket.mk "Malachowsky Hall" [] 0 0).onlinePct = 0 := by
  have h := claim_C1_bucket_invariants.2.1 [] [] (GroupBucket.mk "Malachowsky Hall" [] 0 0)
    (by decide)
  exact ⟨h.1, h.2.2.2.2 rfl⟩

/-- C2: the status classifier maps `1` to unclassified, `3` to `Available`
(code 2), `0` to `Offline`, `"Idle"` to `Available` and `"random"` to
unclassified; and a record whose raw status parses as an integer code that,
after the `1`-exclusion / `3`-remap, is outside `{0, 2, 4}` contributes to no
aggregation bucket of `build_summary`. -/
theorem claim_C2_status_classifier :
    normalize_status (PyVal.vInt 1) = none ∧
    normalize_status (PyVal.vInt 3) = some 2 ∧
    normalize_status (PyVal.vInt 0) = some 0 ∧
    normalize_status (PyVal.vStr "Idle") = some 2 ∧
    normalize_status (PyVal.vStr "random") = none ∧
    (∀ (st : KSState) (comp : Computer) (code : ℤ),
      pyToInt comp.Status = some code → code ≠ 3 → ¬ allowedStatus code →
      (ksStep st comp).overall = st.overall ∧
      (ksStep st comp).byDivision = st.byDivision ∧
      (ksStep st comp).byBuilding = st.byBuilding) := by
  refine ⟨by decide, by decide, by decide, by decide, by decide, ?_⟩
  intro st comp code hparse h3 hall
  apply ksStep_counters_of_skip
  intro st'
  apply processFilters_skip_of_status
  intro s hs
  have hnz : normalize_status comp.Status =
      (if code = 1 then none else if code = 3 then some 2 else some code) := by
    cases hc : comp.Status with
    | vNone => rw [hc] at hparse; simp [pyToInt] at hparse
    | vInt n =>
      rw [hc] at hparse
      simp only [pyToInt, Option.some.injEq] at hparse
      subst hparse
      simp [normalize_status, pyToInt]
    | vStr str =>
      rw [hc] at hparse
      simp only [pyToInt] at hparse
      simp [normalize_status, pyToInt, hparse]
  rw [hnz] at hs
  by_cases h1 : code = 1
  · rw [if_pos h1] at hs
    exact absurd hs (by simp)
  · rw [if_neg h1, if_neg h3] at hs
    injection hs with hs
    subst hs
    exact hall

/-- C2 witness: a record with raw integer status `7` (unknown code) leaves the
overall counter untouched. -/
theorem claim_C2_witness :
    (ksStep initKS (Computer.mk (some "X") none none none (some "Physics")
        (PyVal.vInt 7) (some (PyVal.vInt 4)))).overall = initKS.overall :=
  (claim_C2_status_classifier.2.2.2.2.2 initKS _ 7 (by decide) (by decide) (by decide)).1

/-- C3: the location classifier returns the building label of the first table
entry (in table order) with a pattern occurring in the lower-cased input;
with no match, a nonempty input of at most 3 words is returned verbatim and
anything else (including the empty input) yields `"Other / Ungrouped"`; in
particular on the three example inputs of the spec. -/
theorem claim_C3_location_classifier :
    (∀ division : String,
      get_building_name division =
        match BUILDING_PATTERNS.find?
            (fun e => e.2.any (fun p => hasSub p (strLower division))) with
        | some e => e.1
        | none =>
          if division ≠ "" ∧ (pyWords division).length ≤ 3 then division
          else "Other / Ungrouped") ∧
    get_building_name "Marston Science Library 3rd floor" = "Marston Science Library" ∧
    get_building_name "Unknown Dept X Y Z W" = "Other / Ungrouped" ∧
    get_building_name "Physics" = "Physics" ∧
    get_building_name "" = "Other / Ungrouped" := by
  refine ⟨?_, by decide, by decide, by decide, by decide⟩
  intro division
  unfold get_building_name
  rw [scanPatterns_eq_find]
  cases BUILDING_PATTERNS.find? (fun e => e.2.any (fun p => hasSub p (strLower division))) with
  | none => rfl
  | some e => rfl

/-- C4: the loop of the interest-root resolver always reaches an explicit return
within `|parent_map| + 2` iterations (also on cyclic parent maps); it returns
`some r` exactly for the nearest interest ancestor `r` along the parent chain
(inclusive of the leaf): a returned id is the first chain element in the
interest set, and conversely when a first such chain element exists it is
returned; when the chain reaches a root (absent/null parent) with no interest
ancestor, or never meets the interest set at all (as on a cycle), the result
is `none`; in particular a two-node parent cycle yields `none`. -/
theorem claim_C4_resolver_termination :
    (∀ (pm : List (String × Option String)) (g0 : String),
      findAux pm (pm.length + 2) [] (some g0) ≠ none) ∧
    (∀ (pm : List (String × Option String)) (g r : String),
      find_interest_root_group g pm = some r →
      r ∈ GROUP_IDS_OF_INTEREST ∧
        ∃ k, stepIter pm (some g) k = some r ∧
          ∀ j, j < k → ∀ x, stepIter pm (some g) j = some x →
            x ∉ GROUP_IDS_OF_INTEREST) ∧
    (∀ (pm : List (String × Option String)) (g r : String) (k : Nat),
      stepIter pm (some g) k = some r →
      r ∈ GROUP_IDS_OF_INTEREST →
      (∀ j, j < k → ∀ x, stepIter pm (some g) j = some x →
        x ∉ GROUP_IDS_OF_INTEREST) →
      find_interest_root_group g pm = some r) ∧
    (∀ (pm : List (String × Option String)) (g : String) (k : Nat),
      stepIter pm (some g) k = none →
      (∀ j, j < k → ∀ x, stepIter pm (some g) j = some x →
        x ∉ GROUP_IDS_OF_INTEREST) →
      find_interest_root_group g pm = none) ∧
    find_interest_root_group "x" [("x", some "y"), ("y", some "x")] = none :=
  ⟨fun pm g0 => findAux_fuel_sufficient pm g0,
    fun pm g r h => find_root_sound g pm r h,
    fun pm g r k hk hr hmin => find_root_complete g pm r k hk hr hmin,
    fun pm g k hnone hmin => find_root_none_of_root g pm k hnone hmin,
    by decide⟩

/-- C4 witness: a leaf that is itself an interest-group id resolves to itself
with an empty parent map. -/
theorem claim_C4_witness :
    "9f292bd3-2a30-4c65-88fe-d0aa7873ea83" ∈ GROUP_IDS_OF_INTEREST ∧
      ∃ k, stepIter [] (some "9f292bd3-2a30-4c65-88fe-d0aa7873ea83") k =
          some "9f292bd3-2a30-4c65-88fe-d0aa7873ea83" ∧
        ∀ j, j < k → ∀ x,
          stepIter [] (some "9f292bd3-2a30-4c65-88fe-d0aa7873ea83") j = some x →
            x ∉ GROUP_IDS_OF_INTEREST :=
  claim_C4_resolver_termination.2.1 [] "9f292bd3-2a30-4c65-88fe-d0aa7873ea83"
    "9f292bd3-2a30-4c65-88fe-d0aa7873ea83" (by decide)

/-- C5: deduplication is first-write-wins — `build_summary` computes the same
summary on any input as on its first-record-per-identity-key deduplication —
and on the two-record `"ID-1"` scenario exactly one device is counted, with
the status of the first record `Available`. -/
theorem claim_C5_first_write_wins :
    (∀ computers : List Computer,
      build_summary computers = build_summary (dedupFirst computers)) ∧
    dedupFirst
        [Computer.mk (some "ID-1") none none (some "PC1") (some "Physics")
          (PyVal.vInt 2) (some (PyVal.vInt 4)),
         Computer.mk (some "ID-1") none none (some "PC2") (some "Physics")
          (PyVal.vInt 4) (some (PyVal.vInt 4))] =
      [Computer.mk (some "ID-1") none none (some "PC1") (some "Physics")
        (PyVal.vInt 2) (some (PyVal.vInt 4))] ∧
    (build_summary
        [Computer.mk (some "ID-1") none none (some "PC1") (some "Physics")
          (PyVal.vInt 2) (some (PyVal.vInt 4)),
         Computer.mk (some "ID-1") none none (some "PC2") (some "Physics")
          (PyVal.vInt 4) (some (PyVal.vInt 4))]).overall =
      [StatusEntry.mk 2 "Available" 1] ∧
    (build_summary
        [Computer.mk (some "ID-1") none none (some "PC1") (some "Physics")
          (PyVal.vInt 2) (some (PyVal.vInt 4)),
         Computer.mk (some "ID-1") none none (some "PC2") (some "Physics")
          (PyVal.vInt 4) (some (PyVal.vInt 4))]).total_computers = 1 :=
  ⟨build_summary_dedupFirst, by decide, by decide, by decide⟩

/-- C6: with 10 devices, `lastIndex = 8` and batch size 5, the scan polls the
ids at indices 8, 9, 0, 1, 2 and persists `lastScanIndex = 3`; in general the
new index is `(lastIndex + actually-polled) % deviceCount`, the polled ids are
the consecutive window modulo `deviceCount`, and a run stopping early (the
first `k` attempts succeed) advances by `min k batch` only. -/
theorem claim_C6_scan_cursor :
    (runFirmwareScan 5 ["d0", "d1", "d2", "d3", "d4", "d5", "d6", "d7", "d8", "d9"] 8
        (fun _ => true) =
      some (["d8", "d9", "d0", "d1", "d2"], 3)) ∧
    (∀ (cfg : Nat) (rawIds : List String) (last : Nat) (ok : Nat → Bool)
        (polled : List String) (idx : Nat),
      runFirmwareScan cfg rawIds last ok = some (polled, idx) →
      idx = (last + polled.length) % (sortedDedupIds rawIds).length ∧
      polled = (List.range polled.length).map
          (fun j => (sortedDedupIds rawIds).getD
            ((last + j) % (sortedDedupIds rawIds).length) "") ∧
      polled.length ≤ min cfg (sortedDedupIds rawIds).length) ∧
    (∀ (cfg k : Nat) (rawIds : List String) (last : Nat),
      rawIds ≠ [] →
      ∃ polled idx,
        runFirmwareScan cfg rawIds last (fun j => decide (j < k)) = some (polled, idx) ∧
        polled.length = min k (min cfg (sortedDedupIds rawIds).length) ∧
        idx = (last + polled.length) % (sortedDedupIds rawIds).length) := by
  refine ⟨by decide, ?_, ?_⟩
  · intro cfg rawIds last ok polled idx h
    by_cases hE : rawIds.isEmpty = true
    · exfalso
      simp only [runFirmwareScan] at h
      rw [if_pos hE] at h
      exact absurd h (by simp)
    · simp only [runFirmwareScan] at h
      rw [if_neg hE] at h
      simp only [Option.some.injEq, Prod.mk.injEq] at h
      obtain ⟨hp, hi⟩ := h
      refine ⟨by rw [← hi, ← hp], ?_, ?_⟩
      · rw [← hp]
        have hm := scanLoop_mapped (sortedDedupIds rawIds) ((sortedDedupIds rawIds).length)
          last ok (min cfg ((sortedDedupIds rawIds).length)) 0
        simpa only [Nat.zero_add] using hm
      · rw [← hp]
        exact scanLoop_length_le _ _ _ _ _ _
  · intro cfg k rawIds last hne
    have hE' : ¬ rawIds.isEmpty = true := by
      cases rawIds with
      | nil => exact absurd rfl hne
      | cons a l => simp
    have hmain : runFirmwareScan cfg rawIds last (fun j => decide (j < k)) =
        some (scanLoop (sortedDedupIds rawIds) ((sortedDedupIds rawIds).length) last
            (fun j => decide (j < k)) 0 (min cfg ((sortedDedupIds rawIds).length)),
          (last + (scanLoop (sortedDedupIds rawIds) ((sortedDedupIds rawIds).length) last
              (fun j => decide (j < k)) 0 (min cfg ((sortedDedupIds rawIds).length))).length) %
            ((sortedDedupIds rawIds).length)) := by
      simp only [runFirmwareScan]
      rw [if_neg hE']
    refine ⟨_, _, hmain, ?_, rfl⟩
    rw [scanLoop_prefix_length]
    simp

/-- C6 witness: a rate-limited run whose first 2 attempts succeed advances the
cursor by 2 rather than the batch size. -/
theorem claim_C6_witness :
    ∃ polled idx,
      runFirmwareScan 5 ["d0", "d1", "d2", "d3", "d4", "d5", "d6", "d7", "d8", "d9"] 8
          (fun j => decide (j < 2)) = some (polled, idx) ∧
      polled.length = min 2 (min 5
        (sortedDedupIds ["d0", "d1", "d2", "d3", "d4", "d5", "d6", "d7", "d8", "d9"]).length) ∧
      idx = (8 + polled.length) %
        (sortedDedupIds ["d0", "d1", "d2", "d3", "d4", "d5", "d6", "d7", "d8", "d9"]).length :=
  claim_C6_scan_cursor.2.2 5 2 ["d0", "d1", "d2", "d3", "d4", "d5", "d6", "d7", "d8", "d9"] 8
    (by decide)

/-- C7: the interest-group summary always has exactly one bucket per
configured interest-group label, in the fixed configured order, and a label
with no matching devices still appears as an empty bucket with `total = 0`
and `onlinePct = 0.0`. -/
theorem claim_C7_stable_buckets :
    (∀ (devices : List RawDevice) (pm : List (String × Option String)),
      (summarize_groups_of_interest devices pm).map GroupBucket.name =
        GROUPS_OF_INTEREST.map Prod.snd) ∧
    (∀ (devices : List RawDevice) (pm : List (String × Option String)) (L : String),
      L ∈ GROUPS_OF_INTEREST.map Prod.snd →
      (∀ d ∈ devices, resolveLabel pm d ≠ some L) →
      GroupBucket.mk L [] 0 0 ∈ summarize_groups_of_interest devices pm) := by
  refine ⟨summarize_groups_names, ?_⟩
  intro devices pm L hL hno
  have hseedmem : (L, ([] : List (String × Nat))) ∈
      GROUPS_OF_INTEREST.map (fun p => (p.2, ([] : List (String × Nat)))) := by
    obtain ⟨p, hp, hpe⟩ := List.mem_map.mp hL
    exact List.mem_map.mpr ⟨p, hp, by rw [hpe]⟩
  have hmem := mem_foldl_groupStep_preserved pm L [] devices _ hno hseedmem
  exact List.mem_map.mpr ⟨(L, []), hmem, rfl⟩

/-- C7 witness: with no devices and no parent map, the `"Malachowsky Hall"`
bucket is present and empty. -/
theorem claim_C7_witness :
    GroupBucket.mk "Malachowsky Hall" [] 0 0 ∈ summarize_groups_of_interest [] [] :=
  claim_C7_stable_buckets.2 [] [] "Malachowsky Hall" (by decide)
    (fun d hd => absurd hd (List.not_mem_nil d))

/-- C8 counterexample: with divisions `"apple"` and `"Banana"`, the divisions
list comes out in code-point order `["Banana", "apple"]`, which is not sorted
case-insensitively, refuting the claim as stated. -/
theorem claim_C8_counterexample :
    ((build_summary
        [Computer.mk (some "A1") none none (some "PC1") (some "apple")
          (PyVal.vInt 2) (some (PyVal.vInt 4)),
         Computer.mk (some "B1") none none (some "PC2") (some "Banana")
          (PyVal.vInt 2) (some (PyVal.vInt 4))]).divisions.map DivisionEntry.division =
      ["Banana", "apple"]) ∧
    ¬ List.Sorted (fun a b : String => strLe (strLower a) (strLower b))
      ((build_summary
        [Computer.mk (some "A1") none none (some "PC1") (some "apple")
          (PyVal.vInt 2) (some (PyVal.vInt 4)),
         Computer.mk (some "B1") none none (some "PC2") (some "Banana")
          (PyVal.vInt 2) (some (PyVal.vInt 4))]).divisions.map DivisionEntry.division) := by
  have h1 : (build_summary
      [Computer.mk (some "A1") none none (some "PC1") (some "apple")
        (PyVal.vInt 2) (some (PyVal.vInt 4)),
       Computer.mk (some "B1") none none (some "PC2") (some "Banana")
        (PyVal.vInt 2) (some (PyVal.vInt 4))]).divisions.map DivisionEntry.division =
      ["Banana", "apple"] := by decide
  refine ⟨h1, ?_⟩
  rw [h1]
  intro hsort
  have h := List.rel_of_sorted_cons hsort "apple" (List.mem_cons_self _ _)
  revert h
  decide

/-- C8 amended: the division and building bucket lists are sorted by label in
case-sensitive code-point order (Python `sorted`); the interest-group buckets
appear in the fixed configured order, which happens to be sorted both
case-sensitively and case-insensitively. -/
theorem claim_C8_sorted_amended :
    (∀ computers : List Computer,
      List.Sorted strLe ((build_summary computers).divisions.map DivisionEntry.division)) ∧
    (∀ computers : List Computer,
      List.Sorted strLe ((build_summary computers).buildings.map BuildingEntry.building)) ∧
    (∀ (devices : List RawDevice) (pm : List (String × Option String)),
      (summarize_groups_of_interest devices pm).map GroupBucket.name =
        GROUPS_OF_INTEREST.map Prod.snd) ∧
    List.Sorted strLe (GROUPS_OF_INTEREST.map Prod.snd) ∧
    List.Sorted (fun a b : String => strLe (strLower a) (strLower b))
      (GROUPS_OF_INTEREST.map Prod.snd) := by
  refine ⟨?_, ?_, summarize_groups_names, by decide, by decide⟩
  · intro computers
    have h : (build_summary computers).divisions.map DivisionEntry.division =
        (sortByKey (computers.foldl ksStep initKS).byDivision).map Prod.fst := by
      show ((sortByKey (computers.foldl ksStep initKS).byDivision).map
          (fun p => DivisionEntry.mk p.1 (csum p.2) (statusEntries p.2))).map
          DivisionEntry.division = _
      rw [List.map_map]
      rfl
    rw [h]
    exact sorted_map_fst_sortByKey _
  · intro computers
    have h : (build_summary computers).buildings.map BuildingEntry.building =
        (sortByKey (computers.foldl ksStep initKS).byBuilding).map Prod.fst := by
      show ((sortByKey (computers.foldl ksStep initKS).byBuilding).map
          (fun p => BuildingEntry.mk p.1 (csum p.2) (statusEntries p.2)
            (sortStrings (assocGet (computers.foldl ksStep initKS).buildingDivisions p.1 [])))).map
          BuildingEntry.building = _
      rw [List.map_map]
      rfl
    rw [h]
    exact sorted_map_fst_sortByKey _

/-- C9: identity-based first-record deduplication is idempotent, and records
without any usable identity key are always retained. -/
theorem claim_C9_dedup_idempotent :
    (∀ l : List Computer, dedupFirst (dedupFirst l) = dedupFirst l) ∧
    (∀ l : List Computer,
      (dedupFirst l).filter (fun c => (keyOf c).isNone) =
        l.filter (fun c => (keyOf c).isNone)) :=
  ⟨fun l => dedupAux_idem l [], fun l => dedupAux_filter_keyless l []⟩

/-- C10: `is_dedicated` holds exactly when `Allowed` is the integer 4 or its
trimmed lower-cased string form is `"4"`; and a record failing this test, or
whose division contains `ufapps` / `labvdi` / `made@uf` case-insensitively,
contributes to no aggregation bucket of `build_summary`. -/
theorem claim_C10_dedicated_filter :
    (∀ a : Option PyVal,
      is_dedicated a = true ↔
        (a = some (PyVal.vInt 4) ∨
          ∃ v, a = some v ∧ strLower (strTrim (pyStr v)) = "4")) ∧
    (∀ (st : KSState) (comp : Computer),
      ¬(is_dedicated comp.Allowed = true ∧
          divisionExcluded (strLower (comp.Division.getD "")) = false) →
      (ksStep st comp).overall = st.overall ∧
      (ksStep st comp).byDivision = st.byDivision ∧
      (ksStep st comp).byBuilding = st.byBuilding) := by
  constructor
  · intro a
    cases a with
    | none => simp [is_dedicated]
    | some v =>
      constructor
      · intro h
        simp only [is_dedicated] at h
        by_cases h1 : v = PyVal.vInt 4 ∨ v = PyVal.vStr "4"
        · rcases h1 with h1 | h1
          · left
            rw [h1]
          · right
            exact ⟨v, rfl, by rw [h1]; decide⟩
        · rw [if_neg h1] at h
          by_cases h2 : strLower (strTrim (pyStr v)) = "4"
          · right
            exact ⟨v, rfl, h2⟩
          · rw [if_neg h2] at h
            exact absurd h (by simp)
      · intro h
        rcases h with h | ⟨v', hv', hs⟩
        · injection h with h
          subst h
          decide
        · injection hv' with hv'
          subst hv'
          simp only [is_dedicated]
          by_cases h1 : v = PyVal.vInt 4 ∨ v = PyVal.vStr "4"
          · rw [if_pos h1]
          · rw [if_neg h1, if_pos hs]
  · intro st comp h
    exact ksStep_counters_of_skip st comp
      (fun st' => processFilters_skip_of_filters st' comp h)

/-- C10 witness: a record with no `Allowed` value leaves the overall counter
untouched. -/
theorem claim_C10_witness :
    (ksStep initKS (Computer.mk (some "Y") none none none (some "Physics")
        (PyVal.vInt 2) none)).overall = initKS.overall :=
  (claim_C10_dedicated_filter.2 initKS _ (by decide)).1
